import Mathlib

/-!
# Verification of `intensity_normalization/utilities/mask.py`

Shallow embedding of the tissue-class mask utilities.

A numpy volumetric array is embedded as its flat (row-major) list of
values: intensities are `List ℚ`, boolean masks are `List Bool`, and the
soft class masks (image shape + a trailing dimension of 3) are
`List (List ℚ)` holding one length-3 row of per-class values per voxel.

The external fitting routines (`skfuzzy.cmeans`, `sklearn`'s
`GaussianMixture.fit`/`predict`/`predict_proba`) are not part of this
repository; their results (cluster centers, membership rows, mixture
means and weights, per-voxel predicted components and posterior rows)
are taken as parameters of the embedded functions, exactly where the
source reads them off the fitted model.
-/

namespace IntensityNormalization

/-- `mask_data` computation shared by both functions
(`mask.py` lines 31–34 and 70–73):
`mask_data = brain_mask.get_data() > 0` when a brain mask is supplied,
else `mask_data = img_data > 0` (elementwise comparison). -/
def maskData (imgData : List ℚ) (brainMask : Option (List ℚ)) : List Bool :=
  match brainMask with
  | some bmData => bmData.map (fun v => decide (v > 0))
  | none => imgData.map (fun v => decide (v > 0))

/-- Number of `true` entries of a boolean mask
(`len(mask_data[mask_data])` in the source). -/
def countTrue : List Bool → ℕ
  | [] => 0
  | b :: ms => (if b then 1 else 0) + countTrue ms

/-- Boolean-mask indexing `arr[mask]` of numpy for arrays of equal shape:
keep the values at `true` positions, in positional order. -/
def gather {α : Type} : List Bool → List α → List α
  | [], _ => []
  | _ :: _, [] => []
  | b :: ms, v :: vs => if b then v :: gather ms vs else gather ms vs

/-- Boolean-mask indexed assignment `out = np.zeros(...); out[mask] = vs`
of numpy: an array of `zero` except that the `true` positions of the mask
receive the entries of `vs` in positional order. -/
def scatterZ {α : Type} (zero : α) : List Bool → List α → List α
  | [], _ => []
  | b :: ms, vs =>
    if b then vs.headD zero :: scatterZ zero ms vs.tail
    else zero :: scatterZ zero ms vs

/-- The masked intensity vector `img_data[mask_data]` handed to the
fitting routines (reshaped to one row for `cmeans` on line 35, and to one
column by `np.expand_dims(..., 1)` for `GaussianMixture.fit` on line 75;
the reshaping does not change the sequence of values). -/
def maskedIntensities (imgData : List ℚ) (brainMask : Option (List ℚ)) : List ℚ :=
  gather (maskData imgData brainMask) imgData

/-- numpy's boolean indexing `img_data[mask_data]` including its runtime
shape check: indexing a flat array by a boolean mask of a different
length fails (IndexError), so the result is `none` exactly when the
shapes disagree. -/
def maskedIntensitiesChecked (imgData : List ℚ) (brainMask : Option (List ℚ)) :
    Option (List ℚ) :=
  if (maskData imgData brainMask).length = imgData.length
  then some (gather (maskData imgData brainMask) imgData)
  else none

/-- The order used to sort component indices by a key (cluster center or
mixture weight) ascending. Python's `sorted` is stable, so equal keys
keep their original index order: this is exactly the lexicographic order
on the pair (key, index). `np.argsort` agrees with it whenever the keys
are pairwise distinct (tie order of `np.argsort`'s default sort is
implementation-defined and irrelevant to the theorems below, which either
fix distinct keys or concern fuzzy clustering's Python `sorted`). -/
def sortRel (key : Fin 3 → ℚ) (a b : Fin 3) : Prop :=
  key a < key b ∨ (key a = key b ∧ a ≤ b)

instance sortRelDecidable (key : Fin 3 → ℚ) : DecidableRel (sortRel key) := fun a b => by
  unfold sortRel; infer_instance

instance sortRelTotal (key : Fin 3 → ℚ) : IsTotal (Fin 3) (sortRel key) where
  total a b := by
    unfold sortRel
    rcases lt_trichotomy (key a) (key b) with h | h | h
    · exact Or.inl (Or.inl h)
    · rcases le_total a b with hab | hab
      · exact Or.inl (Or.inr ⟨h, hab⟩)
      · exact Or.inr (Or.inr ⟨h.symm, hab⟩)
    · exact Or.inr (Or.inl h)

instance sortRelTrans (key : Fin 3 → ℚ) : IsTrans (Fin 3) (sortRel key) where
  trans a b c hab hbc := by
    unfold sortRel at *
    rcases hab with h1 | ⟨h1, h1'⟩
    · rcases hbc with h2 | ⟨h2, _⟩
      · exact Or.inl (h1.trans h2)
      · exact Or.inl (h2 ▸ h1)
    · rcases hbc with h2 | ⟨h2, h2'⟩
      · exact Or.inl (h1 ▸ h2)
      · exact Or.inr ⟨h1.trans h2, h1'.trans h2'⟩

/-- The list of raw component indices sorted by ascending key with stable
(index) tie-break: `sorted(enumerate(key), key=lambda x: x[1])` projected
to the indices (`mask.py` line 37), resp. `np.argsort(weights)`
(line 86). -/
def argsortP (key : Fin 3 → ℚ) : List (Fin 3) :=
  List.insertionSort (sortRel key) (List.finRange 3)

/-- Index of the first maximal entry of a triple of keys. This is both
the semantics of Python's `max(..., key=...)` (which keeps the first of
several maximal elements) and of `np.argmax` (first occurrence of the
maximum). -/
def argmax3 (w : Fin 3 → ℚ) : Fin 3 :=
  if w 1 ≤ w 0 ∧ w 2 ≤ w 0 then 0 else if w 2 ≤ w 1 then 1 else 2

/-- `np.argmax(row)` for a length-3 row: first index of the maximum. -/
def argmaxL (row : List ℚ) : ℕ :=
  if row.getD 1 0 ≤ row.getD 0 0 ∧ row.getD 2 0 ≤ row.getD 0 0 then 0
  else if row.getD 2 0 ≤ row.getD 1 0 then 1 else 2

/-- `gmm_class_mask` with `return_wm_peak=True` (`mask.py` lines 80–84):
`wm_peak = max(means) if contrast == 't1' else
max(zip(means, weights), key=lambda x: x[1])[0]`.
Python's `max` scans left to right and replaces only on a strictly
greater key, so the `else` branch returns the mean of the first
component of maximal weight. -/
def gmm_class_mask_wm_peak (contrast : String) (means weights : Fin 3 → ℚ) : ℚ :=
  if contrast = "t1" then max (max (means 0) (means 1)) (means 2)
  else means (argmax3 weights)

/-- One step of the loop on `mask.py` lines 90–91:
`predicted[tmp_predicted == c] = i + 1` — every position whose raw
predicted component equals `c` is overwritten with `i + 1`. -/
def assignStep (tmp : List (Fin 3)) (p : List ℕ) (i : ℕ) (c : Fin 3) : List ℕ :=
  (p.zip tmp).map (fun q => if q.2 = c then i + 1 else q.1)

/-- The loop `for i, c in enumerate(classes): predicted[tmp_predicted == c] = i + 1`
(`mask.py` lines 90–91), running over the remaining `classes` with `i`
the current enumeration counter. -/
def assignLoop (tmp : List (Fin 3)) : ℕ → List (Fin 3) → List ℕ → List ℕ
  | _, [], p => p
  | i, c :: cs, p => assignLoop tmp (i + 1) cs (assignStep tmp p i c)

/-- `predicted = np.zeros(tmp_predicted.shape)` followed by the
enumeration loop of `mask.py` lines 89–91. -/
def predictedLabels (classes : List (Fin 3)) (tmp : List (Fin 3)) : List ℕ :=
  assignLoop tmp 0 classes (tmp.map (fun _ => 0))

/-- `gmm_class_mask` with `return_wm_peak=False, hard_seg=True`
(`mask.py` lines 86–93): `classes = np.argsort(weights)`, remap the raw
predicted components through the enumeration loop, then
`mask = np.zeros(img_data.shape); mask[mask_data] = predicted + 1`.
`tmp` is `gmm.predict(brain)`: the raw predicted component per masked
voxel. -/
def gmm_class_mask_hard (imgData : List ℚ) (brainMask : Option (List ℚ))
    (weights : Fin 3 → ℚ) (tmp : List (Fin 3)) : List ℕ :=
  let ms := maskData imgData brainMask
  scatterZ 0 ms ((predictedLabels (argsortP weights) tmp).map (fun v => v + 1))

/-- `gmm_class_mask` with `return_wm_peak=False, hard_seg=False`
(`mask.py` lines 94–98): `mask = np.zeros((*img_data.shape, 3))` and
`mask[mask_data, i] = predicted_proba[:, c]` for `i, c` in
`enumerate(classes)`; per masked voxel this stores the row
`[proba[c₀], proba[c₁], proba[c₂]]` with `[c₀,c₁,c₂] = classes`, and the
all-zero row elsewhere. `proba` is `gmm.predict_proba(brain)`: one
length-3 row of posterior probabilities per masked voxel. -/
def gmm_class_mask_soft (imgData : List ℚ) (brainMask : Option (List ℚ))
    (weights : Fin 3 → ℚ) (proba : List (List ℚ)) : List (List ℚ) :=
  let ms := maskData imgData brainMask
  scatterZ [0, 0, 0] ms
    (proba.map (fun row => (argsortP weights).map (fun c => row.getD c.val 0)))

/-- `t1_mem_list = [t1_mem[i] for i, _ in sorted(enumerate(t1_cntr), key=lambda x: x[1])]`
(`mask.py` line 37): the membership rows reordered by ascending cluster
center (stable in the raw index on ties, as Python's `sorted` is). -/
def orderedRows (centers : Fin 3 → ℚ) (mem : Fin 3 → List ℚ) : List (List ℚ) :=
  (argsortP centers).map mem

/-- The values of the three (ordered) class rows at masked-voxel
position `j`: the row `mask[mask_data][j]` of the soft output. -/
def tripleAt (rows : List (List ℚ)) (j : ℕ) : List ℚ :=
  rows.map (fun r => r.getD j 0)

/-- `fcm_class_mask` with `hard_seg=False` (`mask.py` lines 37–40):
`mask = np.zeros(img_data.shape + (3,))` and
`mask[..., i][mask_data] = t1_mem_list[i]` for each class `i`; per
masked voxel `j` the trailing dimension holds
`[t1_mem_list[0][j], t1_mem_list[1][j], t1_mem_list[2][j]]`, and the
all-zero row at excluded voxels. `centers`/`mem` are the `cmeans`
results `t1_cntr`/`t1_mem` (3 centers, 3 membership rows of length =
number of included voxels). -/
def fcm_class_mask_soft (imgData : List ℚ) (brainMask : Option (List ℚ))
    (centers : Fin 3 → ℚ) (mem : Fin 3 → List ℚ) : List (List ℚ) :=
  let ms := maskData imgData brainMask
  scatterZ [0, 0, 0] ms
    ((List.range (countTrue ms)).map (tripleAt (orderedRows centers mem)))

/-- `fcm_class_mask` with `hard_seg=True` (`mask.py` lines 41–44):
`tmp_mask = np.zeros(img_data.shape);`
`tmp_mask[mask_data] = np.argmax(mask[mask_data], axis=1) + 1` where
`mask` is the soft output just built. -/
def fcm_class_mask_hard (imgData : List ℚ) (brainMask : Option (List ℚ))
    (centers : Fin 3 → ℚ) (mem : Fin 3 → List ℚ) : List ℕ :=
  let ms := maskData imgData brainMask
  let soft := fcm_class_mask_soft imgData brainMask centers mem
  scatterZ 0 ms ((gather ms soft).map (fun row => argmaxL row + 1))

/-! ## Basic lemmas about scatter, gather and counting -/

theorem getD_tail {α : Type} (vs : List α) (n : ℕ) (d : α) :
    vs.tail.getD n d = vs.getD (n + 1) d := by
  cases vs <;> rfl

theorem scatterZ_length {α : Type} (z : α) (ms : List Bool) (vs : List α) :
    (scatterZ z ms vs).length = ms.length := by
  induction ms generalizing vs with
  | nil => rfl
  | cons b ms ih =>
    simp only [scatterZ]
    by_cases hb : b <;> simp [hb, ih]

theorem scatterZ_getD_false {α : Type} (z : α) (ms : List Bool) (vs : List α)
    (k : ℕ) (hk : ms.getD k false = false) :
    (scatterZ z ms vs).getD k z = z := by
  induction ms generalizing vs k with
  | nil => simp [scatterZ]
  | cons b ms ih =>
    cases b with
    | false =>
      cases k with
      | zero =>
        show (z :: scatterZ z ms vs).getD 0 z = z
        rfl
      | succ k =>
        rw [List.getD_cons_succ] at hk
        show (z :: scatterZ z ms vs).getD (k + 1) z = z
        rw [List.getD_cons_succ]
        exact ih vs k hk
    | true =>
      cases k with
      | zero => simp at hk
      | succ k =>
        rw [List.getD_cons_succ] at hk
        show (vs.headD z :: scatterZ z ms vs.tail).getD (k + 1) z = z
        rw [List.getD_cons_succ]
        exact ih vs.tail k hk

theorem scatterZ_getD_true {α : Type} (z : α) (ms : List Bool) (vs : List α)
    (k : ℕ) (hk : ms.getD k false = true) :
    (scatterZ z ms vs).getD k z = vs.getD (countTrue (ms.take k)) z := by
  induction ms generalizing vs k with
  | nil => simp at hk
  | cons b ms ih =>
    cases b with
    | false =>
      cases k with
      | zero => simp at hk
      | succ k =>
        rw [List.getD_cons_succ] at hk
        show (z :: scatterZ z ms vs).getD (k + 1) z
            = vs.getD (countTrue ((false :: ms).take (k + 1))) z
        rw [List.getD_cons_succ, List.take_succ_cons]
        have hc : countTrue (false :: ms.take k) = countTrue (ms.take k) := by
          simp [countTrue]
        rw [hc]
        exact ih vs k hk
    | true =>
      cases k with
      | zero =>
        show (vs.headD z :: scatterZ z ms vs.tail).getD 0 z
            = vs.getD (countTrue ((true :: ms).take 0)) z
        cases vs <;> rfl
      | succ k =>
        rw [List.getD_cons_succ] at hk
        show (vs.headD z :: scatterZ z ms vs.tail).getD (k + 1) z
            = vs.getD (countTrue ((true :: ms).take (k + 1))) z
        rw [List.getD_cons_succ, List.take_succ_cons]
        have hc : countTrue (true :: ms.take k) = countTrue (ms.take k) + 1 := by
          simp [countTrue, Nat.add_comm]
        rw [hc, ih vs.tail k hk, getD_tail]

theorem gather_scatterZ {α : Type} (z : α) (ms : List Bool) (vs : List α)
    (hlen : vs.length = countTrue ms) :
    gather ms (scatterZ z ms vs) = vs := by
  induction ms generalizing vs with
  | nil =>
    have : vs = [] := List.length_eq_zero.mp (by simpa [countTrue] using hlen)
    subst this
    rfl
  | cons b ms ih =>
    cases b with
    | false =>
      have hlen' : vs.length = countTrue ms := by simpa [countTrue] using hlen
      show gather (false :: ms) (z :: scatterZ z ms vs) = vs
      show gather ms (scatterZ z ms vs) = vs
      exact ih vs hlen'
    | true =>
      have hlen' : vs.length = 1 + countTrue ms := by simpa [countTrue] using hlen
      cases vs with
      | nil =>
        simp only [List.length_nil] at hlen'
        omega
      | cons v vs =>
        have h2 : vs.length = countTrue ms := by
          simp only [List.length_cons] at hlen'
          omega
        show ((v :: vs).headD z :: gather ms (scatterZ z ms (v :: vs).tail)) = v :: vs
        rw [List.headD_cons, List.tail_cons, ih vs h2]

theorem scatterZ_countP {α : Type} (z : α) (p : α → Bool) (ms : List Bool) (vs : List α)
    (hz : p z = false) (hvs : ∀ v ∈ vs, p v = true)
    (hlen : countTrue ms ≤ vs.length) :
    (scatterZ z ms vs).countP p = countTrue ms := by
  induction ms generalizing vs with
  | nil => simp [scatterZ, countTrue]
  | cons b ms ih =>
    cases b with
    | false =>
      have hlen' : countTrue ms ≤ vs.length := by simpa [countTrue] using hlen
      show (z :: scatterZ z ms vs).countP p = countTrue (false :: ms)
      rw [List.countP_cons, hz, ih vs hvs hlen']
      simp [countTrue]
    | true =>
      have hlen' : 1 + countTrue ms ≤ vs.length := by simpa [countTrue] using hlen
      cases vs with
      | nil => simp at hlen'
      | cons v vs =>
        have h2 : countTrue ms ≤ vs.length := by
          simp only [List.length_cons] at hlen'
          omega
        have hv : p v = true := hvs v (List.mem_cons_self v vs)
        show (v :: scatterZ z ms vs).countP p = countTrue (true :: ms)
        rw [List.countP_cons, hv,
          ih vs (fun w hw => hvs w (List.mem_cons_of_mem v hw)) h2]
        simp [countTrue, Nat.add_comm]

theorem countTrue_take_lt (ms : List Bool) (k : ℕ) (hk : ms.getD k false = true) :
    countTrue (ms.take k) < countTrue ms := by
  induction ms generalizing k with
  | nil => simp at hk
  | cons b ms ih =>
    cases b with
    | false =>
      cases k with
      | zero => simp at hk
      | succ k =>
        rw [List.getD_cons_succ] at hk
        rw [List.take_succ_cons]
        have hc : ∀ l, countTrue (false :: l) = countTrue l := fun l => by
          simp [countTrue]
        rw [hc, hc]
        exact ih k hk
    | true =>
      cases k with
      | zero =>
        show countTrue [] < countTrue (true :: ms)
        have : countTrue (true :: ms) = 1 + countTrue ms := by simp [countTrue]
        rw [this]
        show 0 < 1 + countTrue ms
        omega
      | succ k =>
        rw [List.getD_cons_succ] at hk
        rw [List.take_succ_cons]
        have hc : ∀ l, countTrue (true :: l) = 1 + countTrue l := fun l => by
          simp [countTrue]
        rw [hc, hc]
        have := ih k hk
        omega

theorem gather_nil_of_countTrue_zero {α : Type} (ms : List Bool) (vs : List α)
    (h : countTrue ms = 0) : gather ms vs = [] := by
  induction ms generalizing vs with
  | nil => cases vs <;> rfl
  | cons b ms ih =>
    cases b with
    | true => simp [countTrue] at h
    | false =>
      have h' : countTrue ms = 0 := by simpa [countTrue] using h
      cases vs with
      | nil => rfl
      | cons v vs =>
        show gather ms vs = []
        exact ih vs h'

/-! ## Properties of the stable ascending argsort -/

theorem argsortP_perm (key : Fin 3 → ℚ) : (argsortP key).Perm (List.finRange 3) :=
  List.perm_insertionSort _ _

theorem argsortP_sorted (key : Fin 3 → ℚ) :
    (argsortP key).Sorted (sortRel key) :=
  List.sorted_insertionSort _ _

theorem argsortP_nodup (key : Fin 3 → ℚ) : (argsortP key).Nodup :=
  ((argsortP_perm key).nodup_iff).mpr (List.nodup_finRange 3)

theorem argsortP_length (key : Fin 3 → ℚ) : (argsortP key).length = 3 := by
  rw [(argsortP_perm key).length_eq, List.length_finRange]

theorem mem_argsortP (key : Fin 3 → ℚ) (c : Fin 3) : c ∈ argsortP key :=
  ((argsortP_perm key).mem_iff).mpr (List.mem_finRange c)

theorem argsortP_indexOf_lt (key : Fin 3 → ℚ) (c : Fin 3) :
    (argsortP key).indexOf c < 3 := by
  have h := List.indexOf_lt_length.mpr (mem_argsortP key c)
  rwa [argsortP_length key] at h

theorem sortRel_imp_le (key : Fin 3 → ℚ) (a b : Fin 3) (h : sortRel key a b) :
    key a ≤ key b :=
  h.elim le_of_lt (fun h2 => le_of_eq h2.1)

theorem argsortP_ascending (key : Fin 3 → ℚ) (i j : ℕ) (hij : i ≤ j) (hj : j < 3)
    (d : Fin 3) :
    key ((argsortP key).getD i d) ≤ key ((argsortP key).getD j d) := by
  have hi3 : i < (argsortP key).length := by rw [argsortP_length]; omega
  have hj3 : j < (argsortP key).length := by rw [argsortP_length]; omega
  rcases Nat.eq_or_lt_of_le hij with h | h
  · subst h; exact le_refl _
  · rw [List.getD_eq_get _ _ hi3, List.getD_eq_get _ _ hj3]
    exact sortRel_imp_le key _ _
      ((argsortP_sorted key).rel_get_of_lt (by exact Fin.mk_lt_mk.mpr h))

/-- When the three keys are pairwise distinct the argsort is even
strictly ascending. -/
theorem argsortP_sorted_strict (key : Fin 3 → ℚ) (hkey : Function.Injective key) :
    (argsortP key).Sorted (fun a b => key a < key b) := by
  have h := (argsortP_sorted key).and (argsortP_nodup key)
  exact h.imp (fun hab => by
    rcases hab with ⟨h1 | ⟨heq, _⟩, hne⟩
    · exact h1
    · exact absurd (hkey heq) hne)

/-- Class-ordering stability: with pairwise distinct keys, relabelling
the raw components by a permutation `σ` turns the argsort into the
`σ.symm`-relabelled argsort (so anything read through it is unchanged). -/
theorem argsortP_comp_perm (key : Fin 3 → ℚ) (hkey : Function.Injective key)
    (σ : Equiv.Perm (Fin 3)) :
    argsortP (fun i => key (σ i)) = (argsortP key).map σ.symm := by
  haveI : IsAntisymm (Fin 3) (fun a b => key a < key b) :=
    ⟨fun a b h1 h2 => absurd (h1.trans h2) (lt_irrefl _)⟩
  have hmap : (argsortP (fun i => key (σ i))).map σ = argsortP key := by
    apply List.eq_of_perm_of_sorted (r := fun a b : Fin 3 => key a < key b)
    · exact ((argsortP_perm _).map σ).trans
        (σ.map_finRange_perm.trans (argsortP_perm key).symm)
    · rw [List.Sorted, List.pairwise_map]
      exact argsortP_sorted_strict (fun i => key (σ i)) (hkey.comp σ.injective)
    · exact argsortP_sorted_strict key hkey
  have h2 := congrArg (List.map (⇑σ.symm)) hmap
  rw [List.map_map, Equiv.symm_comp_self, List.map_id] at h2
  exact h2

theorem indexOf_map_of_injective {α β : Type} [DecidableEq α] [DecidableEq β]
    {f : α → β} (hf : Function.Injective f) (l : List α) (c : α) :
    (l.map f).indexOf (f c) = l.indexOf c := by
  induction l with
  | nil => rfl
  | cons a l ih =>
    by_cases hac : a = c
    · subst hac
      simp [List.indexOf_cons_self]
    · have hfac : f a ≠ f c := fun h => hac (hf h)
      rw [List.map_cons, List.indexOf_cons_ne _ hfac, List.indexOf_cons_ne _ hac, ih]

/-! ## The enumeration loop of the GMM hard segmentation -/

/-- The value the loop of `mask.py` lines 90–91 leaves at a voxel whose
raw predicted component is `c`, given the remaining classes `cs`, the
current enumeration counter `i` and the value `g c` assigned so far. -/
def assignVal : ℕ → List (Fin 3) → (Fin 3 → ℕ) → Fin 3 → ℕ
  | _, [], g, c => g c
  | i, c' :: cs, g, c =>
    assignVal (i + 1) cs (fun x => if x = c' then i + 1 else g x) c

theorem assignStep_map (g : Fin 3 → ℕ) (i : ℕ) (c' : Fin 3) (tmp : List (Fin 3)) :
    assignStep tmp (tmp.map g) i c'
      = tmp.map (fun c => if c = c' then i + 1 else g c) := by
  induction tmp with
  | nil => rfl
  | cons t ts ih =>
    show ((g t, t) :: ((ts.map g).zip ts)).map _ = _
    rw [List.map_cons, List.map_cons]
    have htail : ((ts.map g).zip ts).map
        (fun q : ℕ × Fin 3 => if q.2 = c' then i + 1 else q.1)
        = ts.map (fun c => if c = c' then i + 1 else g c) := ih
    rw [htail]

theorem assignLoop_map (tmp : List (Fin 3)) (cs : List (Fin 3)) :
    ∀ (i : ℕ) (g : Fin 3 → ℕ),
    assignLoop tmp i cs (tmp.map g) = tmp.map (assignVal i cs g) := by
  induction cs with
  | nil => intro i g; rfl
  | cons c' cs ih =>
    intro i g
    show assignLoop tmp (i + 1) cs (assignStep tmp (tmp.map g) i c') = _
    rw [assignStep_map]
    exact ih (i + 1) (fun x => if x = c' then i + 1 else g x)

theorem assignVal_of_not_mem (cs : List (Fin 3)) :
    ∀ (i : ℕ) (g : Fin 3 → ℕ) (c : Fin 3), c ∉ cs → assignVal i cs g c = g c := by
  induction cs with
  | nil => intro i g c _; rfl
  | cons c' cs ih =>
    intro i g c hc
    have hne : c ≠ c' := fun h => hc (h ▸ List.mem_cons_self c' cs)
    have hnm : c ∉ cs := fun h => hc (List.mem_cons_of_mem c' h)
    show assignVal (i + 1) cs _ c = g c
    rw [ih (i + 1) _ c hnm]
    simp [hne]

theorem assignVal_indexOf (cs : List (Fin 3)) :
    ∀ (i : ℕ) (g : Fin 3 → ℕ) (c : Fin 3), cs.Nodup → c ∈ cs →
    assignVal i cs g c = i + cs.indexOf c + 1 := by
  induction cs with
  | nil => intro i g c _ hc; simp at hc
  | cons c' cs ih =>
    intro i g c hnd hc
    by_cases h : c = c'
    · subst h
      have hnm : c ∉ cs := (List.nodup_cons.mp hnd).1
      show assignVal (i + 1) cs _ c = _
      rw [assignVal_of_not_mem cs (i + 1) _ c hnm]
      simp [List.indexOf_cons_self]
    · have hmem : c ∈ cs := (List.mem_cons.mp hc).resolve_left h
      have hnd' : cs.Nodup := (List.nodup_cons.mp hnd).2
      show assignVal (i + 1) cs _ c = _
      rw [ih (i + 1) _ c hnd' hmem,
        List.indexOf_cons_ne _ (fun hh => h hh.symm)]
      omega

/-- The loop of `mask.py` lines 89–91 maps every voxel's raw predicted
component to its 1-based rank in `classes`, whenever `classes` is a
duplicate-free enumeration of all three components (as `argsortP` always
is). -/
theorem predictedLabels_eq (classes tmp : List (Fin 3)) (hnd : classes.Nodup)
    (hall : ∀ c, c ∈ classes) :
    predictedLabels classes tmp = tmp.map (fun c => classes.indexOf c + 1) := by
  unfold predictedLabels
  rw [assignLoop_map]
  have hfun : assignVal 0 classes (fun _ => 0) = fun c => classes.indexOf c + 1 := by
    funext c
    rw [assignVal_indexOf classes 0 _ c hnd (hall c)]
    omega
  rw [hfun]

/-! ## First-maximum selection -/

/-- `argmax3` picks the first maximal entry: if `i` is maximal and every
earlier entry is strictly smaller, the result is `i`. -/
theorem argmax3_spec (w : Fin 3 → ℚ) (i : Fin 3) (hmax : ∀ j, w j ≤ w i)
    (hfirst : ∀ j, j < i → w j < w i) : argmax3 w = i := by
  fin_cases i
  · show argmax3 w = 0
    unfold argmax3
    rw [if_pos ⟨(hmax 1 : w 1 ≤ w 0), (hmax 2 : w 2 ≤ w 0)⟩]
  · show argmax3 w = 1
    unfold argmax3
    have h0 : w 0 < w 1 := hfirst 0 (by decide)
    have h2 : w 2 ≤ w 1 := hmax 2
    rw [if_neg (fun h => absurd h.1 (not_le.mpr h0)), if_pos h2]
  · show argmax3 w = 2
    unfold argmax3
    have h0 : w 0 < w 2 := hfirst 0 (by decide)
    have h1 : w 1 < w 2 := hfirst 1 (by decide)
    rw [if_neg (fun h => absurd h.2 (not_le.mpr h0)), if_neg (not_le.mpr h1)]

theorem argmaxL_lt (row : List ℚ) : argmaxL row < 3 := by
  unfold argmaxL
  split
  · omega
  · split <;> omega

theorem maskData_getD (vals : List ℚ) (k : ℕ) :
    (vals.map (fun v => decide (v > 0))).getD k false
      = decide (vals.getD k 0 > 0) := by
  induction vals generalizing k with
  | nil => rfl
  | cons v vs ih =>
    cases k with
    | zero => rfl
    | succ k => exact ih k

theorem argmax3_is_max (w : Fin 3 → ℚ) : ∀ j, w j ≤ w (argmax3 w) := by
  intro j
  unfold argmax3
  split_ifs with h1 h2
  · fin_cases j
    · exact le_refl _
    · exact h1.1
    · exact h1.2
  · have h0 : w 0 ≤ w 1 := by
      rcases not_and_or.mp h1 with h | h
      · exact (not_le.mp h).le
      · exact (not_le.mp h).le.trans h2
    fin_cases j
    · exact h0
    · exact le_refl _
    · exact h2
  · have h21 : w 1 ≤ w 2 := (not_le.mp h2).le
    have h0 : w 0 ≤ w 2 := by
      rcases not_and_or.mp h1 with h | h
      · exact (not_le.mp h).le.trans h21
      · exact (not_le.mp h).le
    fin_cases j
    · exact h0
    · exact h21
    · exact le_refl _

/-! ## Claims -/

/-- C4: in both engines the inclusion mask is true exactly where the
brain-mask value is greater than 0 when a brain mask is supplied, and
exactly where the image value is greater than 0 otherwise (positions
outside the array count as excluded). -/
theorem c4_inclusion_mask (img m : List ℚ) (k : ℕ) :
    ((maskData img (some m)).getD k false = true ↔ m.getD k 0 > 0) ∧
    ((maskData img none).getD k false = true ↔ img.getD k 0 > 0) := by
  constructor
  · show ((m.map (fun v => decide (v > 0))).getD k false = true ↔ _)
    rw [maskData_getD]
    exact decide_eq_true_iff
  · show ((img.map (fun v => decide (v > 0))).getD k false = true ↔ _)
    rw [maskData_getD]
    exact decide_eq_true_iff

/-- C2: with `return_wm_peak=True` the result is a scalar: for contrast
't1' it is the maximum of the 3 fitted means, and for every other
contrast it is the mean of a component of maximal mixture weight. -/
theorem c2_gmm_wm_peak (contrast : String) (means weights : Fin 3 → ℚ) :
    (contrast = "t1" →
      (∀ i, means i ≤ gmm_class_mask_wm_peak contrast means weights) ∧
      (∃ i, gmm_class_mask_wm_peak contrast means weights = means i)) ∧
    (contrast ≠ "t1" →
      ∃ i, gmm_class_mask_wm_peak contrast means weights = means i ∧
        ∀ j, weights j ≤ weights i) := by
  constructor
  · intro h
    unfold gmm_class_mask_wm_peak
    rw [if_pos h]
    constructor
    · intro i
      fin_cases i
      · exact le_trans (le_max_left _ _) (le_max_left _ _)
      · exact le_trans (le_max_right _ _) (le_max_left _ _)
      · exact le_max_right _ _
    · rcases max_choice (max (means 0) (means 1)) (means 2) with h2 | h2
      · rcases max_choice (means 0) (means 1) with h3 | h3
        · exact ⟨0, by rw [h2, h3]⟩
        · exact ⟨1, by rw [h2, h3]⟩
      · exact ⟨2, h2⟩
  · intro h
    unfold gmm_class_mask_wm_peak
    rw [if_neg h]
    exact ⟨argmax3 weights, rfl, argmax3_is_max weights⟩

/-- Witness for C2 at a concrete model: contrast 't2' is not 't1', and
the weight-based branch picks a maximal-weight component's mean. -/
theorem c2_gmm_wm_peak_witness :
    ("t2" : String) ≠ "t1" ∧
    (∃ i, gmm_class_mask_wm_peak "t2" ![1, 5, 3] ![1, 2, 3] = ![1, 5, 3] i ∧
      ∀ j, (![1, 2, 3] : Fin 3 → ℚ) j ≤ ![1, 2, 3] i) :=
  ⟨by decide, (c2_gmm_wm_peak "t2" ![1, 5, 3] ![1, 2, 3]).2 (by decide)⟩

/-- C10: for contrast ≠ 't1', ties in the mixture weights are broken in
favour of the first maximal component in raw order (Python's `max`
returns the first maximal element), whose mean is returned. -/
theorem c10_wm_peak_tie (contrast : String) (means weights : Fin 3 → ℚ) (i : Fin 3)
    (hc : contrast ≠ "t1") (hmax : ∀ j, weights j ≤ weights i)
    (hfirst : ∀ j, j < i → weights j < weights i) :
    gmm_class_mask_wm_peak contrast means weights = means i := by
  unfold gmm_class_mask_wm_peak
  rw [if_neg hc, argmax3_spec weights i hmax hfirst]

/-- Witness for C10: weights `[2, 2, 1]` tie on the first two components
and the mean of the first one (raw index 0) is returned. -/
theorem c10_wm_peak_tie_witness :
    ("t2" : String) ≠ "t1" ∧
    gmm_class_mask_wm_peak "t2" ![10, 20, 30] ![2, 2, 1] = 10 :=
  ⟨by decide,
    c10_wm_peak_tie "t2" ![10, 20, 30] ![2, 2, 1] 0 (by decide) (by decide)
      (by decide)⟩

/-- C5 counterexample: on the image `[0]` the inclusion mask is
all-false, yet no `EmptyMaskError` guard exists: the masked intensity
vector is still extracted — empty — and is exactly what both engines
hand to their fitting routine. -/
theorem c5_counterexample :
    countTrue (maskData [0] none) = 0 ∧ maskedIntensities [0] none = [] := by
  decide

/-- C5 amended: neither function validates the inclusion mask: when it
selects zero voxels, the (empty) masked intensity vector is extracted
and passed to the fitting routine in both engines; no `EmptyMaskError`
is raised before fitting. -/
theorem c5_empty_mask_passed (img : List ℚ) (bm : Option (List ℚ))
    (h : countTrue (maskData img bm) = 0) :
    maskedIntensities img bm = [] :=
  gather_nil_of_countTrue_zero _ _ h

/-- Witness for the amended C5 at the all-zero image `[0, 0]`. -/
theorem c5_empty_mask_passed_witness :
    countTrue (maskData [0, 0] none) = 0 ∧ maskedIntensities [0, 0] none = [] :=
  ⟨by decide, c5_empty_mask_passed [0, 0] none (by decide)⟩

/-- C6 counterexample: with image `[1]` and brain mask `[1, 1]` of a
different shape, no `ShapeMismatch` is raised before extraction: the
inclusion mask is happily computed from the brain mask alone, and it is
the attempted boolean-index extraction itself that fails. -/
theorem c6_counterexample :
    maskData [1] (some [1, 1]) = [true, true] ∧
    maskedIntensitiesChecked [1] (some [1, 1]) = none := by
  decide

/-- C6 amended: the source performs no shape validation: with a
mismatched brain mask the inclusion mask is still computed from the
brain mask alone, and the failure only arises inside the attempted
boolean-index extraction of the masked intensity vector. -/
theorem c6_shape_mismatch (img m : List ℚ) (h : m.length ≠ img.length) :
    maskData img (some m) = m.map (fun v => decide (v > 0)) ∧
    maskedIntensitiesChecked img (some m) = none := by
  refine ⟨rfl, ?_⟩
  unfold maskedIntensitiesChecked
  rw [if_neg]
  intro hc
  apply h
  simpa [maskData] using hc

/-- Witness for the amended C6 at image `[1]`, brain mask `[1, 1]`. -/
theorem c6_shape_mismatch_witness :
    ([1, 1] : List ℚ).length ≠ ([1] : List ℚ).length ∧
    (maskData [1] (some [1, 1]) = [1, 1].map (fun v => decide (v > 0)) ∧
      maskedIntensitiesChecked [1] (some [1, 1]) = none) :=
  ⟨by decide, c6_shape_mismatch [1] [1, 1] (by decide)⟩

theorem getD_map_of_lt {α β : Type} (f : α → β) (l : List α) (j : ℕ)
    (hj : j < l.length) (d : β) (d' : α) :
    (l.map f).getD j d = f (l.getD j d') := by
  induction l generalizing j with
  | nil => simp at hj
  | cons a l ih =>
    cases j with
    | zero => rfl
    | succ j =>
      simp only [List.length_cons] at hj
      show (l.map f).getD j d = f (l.getD j d')
      exact ih j (by omega)

theorem getD_range (n j : ℕ) (hj : j < n) : (List.range n).getD j 0 = j := by
  rw [List.getD_eq_getElem _ _ (by simpa using hj)]
  simp

/-- C1: in the GMM hard segmentation every excluded voxel holds 0, and
every included voxel holds the 1-based rank (under the ascending-weight
class ordering) of its raw predicted component, plus 1 more — hence a
value in {2, 3, 4}. -/
theorem c1_gmm_hard_values (img : List ℚ) (bm : Option (List ℚ))
    (w : Fin 3 → ℚ) (tmp : List (Fin 3))
    (hlen : tmp.length = countTrue (maskData img bm)) (k : ℕ) :
    ((maskData img bm).getD k false = false →
      (gmm_class_mask_hard img bm w tmp).getD k 0 = 0) ∧
    ((maskData img bm).getD k false = true →
      (gmm_class_mask_hard img bm w tmp).getD k 0
        = ((argsortP w).indexOf
            (tmp.getD (countTrue ((maskData img bm).take k)) 0) + 1) + 1 ∧
      ((gmm_class_mask_hard img bm w tmp).getD k 0 = 2 ∨
       (gmm_class_mask_hard img bm w tmp).getD k 0 = 3 ∨
       (gmm_class_mask_hard img bm w tmp).getD k 0 = 4)) := by
  have hunfold : gmm_class_mask_hard img bm w tmp
      = scatterZ 0 (maskData img bm)
          ((predictedLabels (argsortP w) tmp).map (fun v => v + 1)) := rfl
  constructor
  · intro hf
    rw [hunfold]
    exact scatterZ_getD_false 0 _ _ k hf
  · intro ht
    have hj : countTrue ((maskData img bm).take k) < tmp.length := by
      rw [hlen]
      exact countTrue_take_lt _ k ht
    have hplab := predictedLabels_eq (argsortP w) tmp (argsortP_nodup w)
      (mem_argsortP w)
    have hval : (gmm_class_mask_hard img bm w tmp).getD k 0
        = ((argsortP w).indexOf
            (tmp.getD (countTrue ((maskData img bm).take k)) 0) + 1) + 1 := by
      rw [hunfold, scatterZ_getD_true _ _ _ k ht, hplab, List.map_map]
      exact getD_map_of_lt _ tmp _ hj 0 0
    refine ⟨hval, ?_⟩
    have hidx := argsortP_indexOf_lt w
      (tmp.getD (countTrue ((maskData img bm).take k)) 0)
    rw [hval]
    omega

/-- Witness for C1: image `[1, 0, 2]`, no brain mask, weights `[3, 2, 1]`
(ascending order of raw components: 2, 1, 0), raw predictions `[0, 2]`;
the first voxel is included, predicted raw component 0 has rank 3, so it
holds 3 + 1 = 4. -/
theorem c1_gmm_hard_values_witness :
    ([0, 2] : List (Fin 3)).length = countTrue (maskData [1, 0, 2] none) ∧
    (gmm_class_mask_hard [1, 0, 2] none ![3, 2, 1] [0, 2]).getD 0 0 = 4 := by
  have h := (c1_gmm_hard_values [1, 0, 2] none ![3, 2, 1] [0, 2]
    (by decide) 0).2 (by decide)
  exact ⟨by decide, h.1.trans (by decide)⟩

/-- C3: in fuzzy clustering the classes are reordered by ascending
cluster center (output class 0 = lowest center), and in the hard
segmentation every excluded voxel holds 0 while every included voxel
holds 1 + (first) argmax of its three ordered membership values — hence
a value in {1, 2, 3}. -/
theorem c3_fcm_hard_values (img : List ℚ) (bm : Option (List ℚ))
    (centers : Fin 3 → ℚ) (mem : Fin 3 → List ℚ)
    (hmem : ∀ i, (mem i).length = countTrue (maskData img bm)) (k : ℕ) :
    (centers ((argsortP centers).getD 0 0) ≤ centers ((argsortP centers).getD 1 0) ∧
     centers ((argsortP centers).getD 1 0) ≤ centers ((argsortP centers).getD 2 0)) ∧
    ((maskData img bm).getD k false = false →
      (fcm_class_mask_hard img bm centers mem).getD k 0 = 0) ∧
    ((maskData img bm).getD k false = true →
      (fcm_class_mask_hard img bm centers mem).getD k 0
        = argmaxL (tripleAt (orderedRows centers mem)
            (countTrue ((maskData img bm).take k))) + 1 ∧
      ((fcm_class_mask_hard img bm centers mem).getD k 0 = 1 ∨
       (fcm_class_mask_hard img bm centers mem).getD k 0 = 2 ∨
       (fcm_class_mask_hard img bm centers mem).getD k 0 = 3)) := by
  have hunfold : fcm_class_mask_hard img bm centers mem
      = scatterZ 0 (maskData img bm)
          ((gather (maskData img bm) (fcm_class_mask_soft img bm centers mem)).map
            (fun row => argmaxL row + 1)) := rfl
  have hsoft : fcm_class_mask_soft img bm centers mem
      = scatterZ [0, 0, 0] (maskData img bm)
          ((List.range (countTrue (maskData img bm))).map
            (tripleAt (orderedRows centers mem))) := rfl
  refine ⟨⟨argsortP_ascending centers 0 1 (by omega) (by omega) 0,
           argsortP_ascending centers 1 2 (by omega) (by omega) 0⟩, ?_, ?_⟩
  · intro hf
    rw [hunfold]
    exact scatterZ_getD_false 0 _ _ k hf
  · intro ht
    have hroundtrip : gather (maskData img bm) (fcm_class_mask_soft img bm centers mem)
        = (List.range (countTrue (maskData img bm))).map
            (tripleAt (orderedRows centers mem)) := by
      rw [hsoft]
      exact gather_scatterZ _ _ _ (by simp)
    have hj : countTrue ((maskData img bm).take k) < countTrue (maskData img bm) :=
      countTrue_take_lt _ k ht
    have hval : (fcm_class_mask_hard img bm centers mem).getD k 0
        = argmaxL (tripleAt (orderedRows centers mem)
            (countTrue ((maskData img bm).take k))) + 1 := by
      rw [hunfold, scatterZ_getD_true _ _ _ k ht, hroundtrip, List.map_map,
        getD_map_of_lt _ _ _ (by simpa using hj) 0 0, getD_range _ _ hj]
      rfl
    refine ⟨hval, ?_⟩
    have hbound := argmaxL_lt (tripleAt (orderedRows centers mem)
      (countTrue ((maskData img bm).take k)))
    rw [hval]
    omega

/-- Witness for C3: image `[1, 0]`, no brain mask, centers `[5, 1, 3]`
(ascending order of raw components: 1, 2, 0), membership rows
`[[2], [1], [1]]`; the single included voxel's ordered memberships are
`[1, 1, 2]`, whose first argmax is 2, so the voxel holds 3. -/
theorem c3_fcm_hard_values_witness :
    (∀ i : Fin 3, ((![[(2 : ℚ)], [1], [1]] : Fin 3 → List ℚ) i).length
      = countTrue (maskData [1, 0] none)) ∧
    (fcm_class_mask_hard [1, 0] none ![5, 1, 3] ![[2], [1], [1]]).getD 0 0
      = 3 := by
  have h := (c3_fcm_hard_values [1, 0] none ![5, 1, 3] ![[2], [1], [1]]
    (by decide) 0).2.2 (by decide)
  exact ⟨by decide, h.1.trans (by decide)⟩

/-- C7: in both engines the hard-segmentation output has exactly as many
nonzero voxels as the inclusion mask has true voxels: every included
voxel receives a nonzero label and every excluded voxel stays 0. -/
theorem c7_hard_nonzero_count (img : List ℚ) (bm : Option (List ℚ))
    (centers : Fin 3 → ℚ) (mem : Fin 3 → List ℚ)
    (w : Fin 3 → ℚ) (tmp : List (Fin 3))
    (hmem : ∀ i, (mem i).length = countTrue (maskData img bm))
    (hlen : tmp.length = countTrue (maskData img bm)) :
    (fcm_class_mask_hard img bm centers mem).countP (fun v => decide (v ≠ 0))
      = countTrue (maskData img bm) ∧
    (gmm_class_mask_hard img bm w tmp).countP (fun v => decide (v ≠ 0))
      = countTrue (maskData img bm) := by
  constructor
  · show (scatterZ 0 (maskData img bm)
      ((gather (maskData img bm) (fcm_class_mask_soft img bm centers mem)).map
        (fun row => argmaxL row + 1))).countP _ = _
    apply scatterZ_countP
    · rfl
    · intro v hv
      rcases List.mem_map.mp hv with ⟨row, _, rfl⟩
      simp
    · have hroundtrip :
          gather (maskData img bm) (fcm_class_mask_soft img bm centers mem)
            = (List.range (countTrue (maskData img bm))).map
                (tripleAt (orderedRows centers mem)) :=
        gather_scatterZ _ _ _ (by simp)
      rw [List.length_map, hroundtrip, List.length_map, List.length_range]
  · show (scatterZ 0 (maskData img bm)
      ((predictedLabels (argsortP w) tmp).map (fun v => v + 1))).countP _ = _
    apply scatterZ_countP
    · rfl
    · intro v hv
      rcases List.mem_map.mp hv with ⟨x, _, rfl⟩
      simp
    · rw [List.length_map,
        predictedLabels_eq _ _ (argsortP_nodup w) (mem_argsortP w),
        List.length_map, hlen]

/-- Witness for C7 on a 2-voxel image with one included voxel: both hard
outputs have exactly one nonzero voxel. -/
theorem c7_hard_nonzero_count_witness :
    ([0] : List (Fin 3)).length = countTrue (maskData [1, 0] none) ∧
    (fcm_class_mask_hard [1, 0] none ![5, 1, 3] ![[2], [1], [1]]).countP
        (fun v => decide (v ≠ 0)) = countTrue (maskData [1, 0] none) ∧
    (gmm_class_mask_hard [1, 0] none ![3, 2, 1] [0]).countP
        (fun v => decide (v ≠ 0)) = countTrue (maskData [1, 0] none) := by
  have h := c7_hard_nonzero_count [1, 0] none ![5, 1, 3] ![[2], [1], [1]]
    ![3, 2, 1] [0] (by decide) (by decide)
  exact ⟨by decide, h.1, h.2⟩

theorem finRange_three : List.finRange 3 = [0, 1, 2] := by decide

theorem sum_map_argsortP (key : Fin 3 → ℚ) (f : Fin 3 → ℚ) :
    ((argsortP key).map f).sum = f 0 + f 1 + f 2 := by
  have hp : ((argsortP key).map f).Perm ((List.finRange 3).map f) :=
    (argsortP_perm key).map f
  rw [hp.sum_eq, finRange_three]
  simp only [List.map_cons, List.map_nil, List.sum_cons, List.sum_nil]
  ring

/-- C8: in both engines' soft outputs, every excluded voxel holds the
all-zero class row, and every included voxel's 3 class values sum to 1,
under the hypothesis that the fitted model's per-voxel memberships
(fuzzy) resp. posterior rows (mixture) sum to 1. -/
theorem c8_soft_partition (img : List ℚ) (bm : Option (List ℚ))
    (centers : Fin 3 → ℚ) (mem : Fin 3 → List ℚ)
    (w : Fin 3 → ℚ) (proba : List (List ℚ))
    (hmem : ∀ i, (mem i).length = countTrue (maskData img bm))
    (hmemsum : ∀ j, j < countTrue (maskData img bm) →
      (mem 0).getD j 0 + (mem 1).getD j 0 + (mem 2).getD j 0 = 1)
    (hproba : proba.length = countTrue (maskData img bm))
    (hprobasum : ∀ row ∈ proba, row.getD 0 0 + row.getD 1 0 + row.getD 2 0 = 1)
    (k : ℕ) :
    ((maskData img bm).getD k false = false →
      (fcm_class_mask_soft img bm centers mem).getD k [0, 0, 0] = [0, 0, 0] ∧
      (gmm_class_mask_soft img bm w proba).getD k [0, 0, 0] = [0, 0, 0]) ∧
    ((maskData img bm).getD k false = true →
      ((fcm_class_mask_soft img bm centers mem).getD k [0, 0, 0]).sum = 1 ∧
      ((gmm_class_mask_soft img bm w proba).getD k [0, 0, 0]).sum = 1) := by
  constructor
  · intro hf
    exact ⟨scatterZ_getD_false _ _ _ k hf, scatterZ_getD_false _ _ _ k hf⟩
  · intro ht
    have hj := countTrue_take_lt (maskData img bm) k ht
    constructor
    · have h1 : (fcm_class_mask_soft img bm centers mem).getD k [0, 0, 0]
          = tripleAt (orderedRows centers mem)
              (countTrue ((maskData img bm).take k)) := by
        show (scatterZ [0, 0, 0] (maskData img bm)
          ((List.range (countTrue (maskData img bm))).map
            (tripleAt (orderedRows centers mem)))).getD k [0, 0, 0] = _
        rw [scatterZ_getD_true _ _ _ k ht,
          getD_map_of_lt _ _ _ (by simpa using hj) _ 0, getD_range _ _ hj]
      have h2 : tripleAt (orderedRows centers mem)
            (countTrue ((maskData img bm).take k))
          = (argsortP centers).map
              (fun c => (mem c).getD (countTrue ((maskData img bm).take k)) 0) := by
        unfold tripleAt orderedRows
        rw [List.map_map]
        rfl
      rw [h1, h2, sum_map_argsortP]
      exact hmemsum _ hj
    · have hjp : countTrue ((maskData img bm).take k) < proba.length := by
        rw [hproba]
        exact hj
      have h1 : (gmm_class_mask_soft img bm w proba).getD k [0, 0, 0]
          = (argsortP w).map
              (fun c => (proba.getD (countTrue ((maskData img bm).take k)) []).getD
                c.val 0) := by
        show (scatterZ [0, 0, 0] (maskData img bm)
          (proba.map (fun row => (argsortP w).map
            (fun c => row.getD c.val 0)))).getD k [0, 0, 0] = _
        rw [scatterZ_getD_true _ _ _ k ht, getD_map_of_lt _ _ _ hjp _ []]
      have hrow : proba.getD (countTrue ((maskData img bm).take k)) [] ∈ proba := by
        rw [List.getD_eq_getElem _ _ hjp]
        exact List.getElem_mem hjp
      rw [h1, sum_map_argsortP]
      exact hprobasum _ hrow

/-- Witness for C8 on a single-voxel image: memberships `[1, 0, 0]` and
posterior row `[0, 0, 1]` both scatter to class rows summing to 1. -/
theorem c8_soft_partition_witness :
    (∀ row ∈ ([[0, 0, 1]] : List (List ℚ)),
      row.getD 0 0 + row.getD 1 0 + row.getD 2 0 = 1) ∧
    ((fcm_class_mask_soft [1] none ![1, 2, 3] ![[1], [0], [0]]).getD 0
      [0, 0, 0]).sum = 1 ∧
    ((gmm_class_mask_soft [1] none ![1, 2, 3] [[0, 0, 1]]).getD 0
      [0, 0, 0]).sum = 1 := by
  have hrows : ∀ row ∈ ([[0, 0, 1]] : List (List ℚ)),
      row.getD 0 0 + row.getD 1 0 + row.getD 2 0 = 1 := by
    intro row hrow
    rcases List.mem_singleton.mp hrow with rfl
    show (0 : ℚ) + 0 + 1 = 1
    norm_num
  have h := (c8_soft_partition [1] none ![1, 2, 3] ![[1], [0], [0]] ![1, 2, 3]
    [[0, 0, 1]] (by decide)
    (by
      intro j hj
      have hc : countTrue (maskData [1] none) = 1 := by decide
      rw [hc] at hj
      have hj0 : j = 0 := by omega
      subst hj0
      show (1 : ℚ) + 0 + 0 = 1
      norm_num)
    (by decide) hrows 0).2 (by decide)
  exact ⟨hrows, h.1, h.2⟩

theorem getD_map_finRange (f : Fin 3 → ℚ) (c : Fin 3) :
    ((List.finRange 3).map f).getD c.val 0 = f c := by
  rw [finRange_three]
  fin_cases c <;> rfl

/-- C9 counterexample: with tied cluster centers (5, 5, 7) the fuzzy
class ordering depends on the raw component order: swapping the first
two raw components (which swaps their membership rows but leaves the
center multiset unchanged) changes the reordered soft output, so the
permutation-invariance claim fails as stated. -/
theorem c9_counterexample :
    fcm_class_mask_soft [1] none
        (fun i => (![5, 5, 7] : Fin 3 → ℚ) (Equiv.swap 0 1 i))
        (fun i => (![[1], [0], [0]] : Fin 3 → List ℚ) (Equiv.swap 0 1 i))
      ≠ fcm_class_mask_soft [1] none ![5, 5, 7] ![[1], [0], [0]] := by
  decide

/-- C9 amended: when the three cluster centers (fuzzy) resp. the three
mixture weights (mixture) are pairwise distinct, permuting the raw
component order of the fitted model — centers together with membership
rows for fuzzy; weights together with predicted labels and posterior
columns for mixture — leaves every reordered output of both engines
bit-identical. (With ties this fails: see the counterexample.) -/
theorem c9_class_ordering_invariance (img : List ℚ) (bm : Option (List ℚ))
    (centers : Fin 3 → ℚ) (mem : Fin 3 → List ℚ) (w : Fin 3 → ℚ)
    (tmp : List (Fin 3)) (proba : List (List ℚ)) (σ : Equiv.Perm (Fin 3))
    (hc : Function.Injective centers) (hw : Function.Injective w) :
    fcm_class_mask_soft img bm (fun i => centers (σ i)) (fun i => mem (σ i))
      = fcm_class_mask_soft img bm centers mem ∧
    fcm_class_mask_hard img bm (fun i => centers (σ i)) (fun i => mem (σ i))
      = fcm_class_mask_hard img bm centers mem ∧
    gmm_class_mask_soft img bm (fun i => w (σ i))
        (proba.map (fun row => (List.finRange 3).map (fun i => row.getD (σ i).val 0)))
      = gmm_class_mask_soft img bm w proba ∧
    gmm_class_mask_hard img bm (fun i => w (σ i)) (tmp.map (fun c => σ.symm c))
      = gmm_class_mask_hard img bm w tmp := by
  have hrows : orderedRows (fun i => centers (σ i)) (fun i => mem (σ i))
      = orderedRows centers mem := by
    unfold orderedRows
    rw [argsortP_comp_perm centers hc σ, List.map_map]
    have hfun : ((fun i => mem (σ i)) ∘ ⇑σ.symm) = mem := by
      funext c
      simp
    rw [hfun]
  have h1 : fcm_class_mask_soft img bm (fun i => centers (σ i))
      (fun i => mem (σ i)) = fcm_class_mask_soft img bm centers mem := by
    unfold fcm_class_mask_soft
    rw [hrows]
  have h2 : fcm_class_mask_hard img bm (fun i => centers (σ i))
      (fun i => mem (σ i)) = fcm_class_mask_hard img bm centers mem := by
    unfold fcm_class_mask_hard
    rw [h1]
  have h3 : gmm_class_mask_soft img bm (fun i => w (σ i))
      (proba.map (fun row => (List.finRange 3).map (fun i => row.getD (σ i).val 0)))
      = gmm_class_mask_soft img bm w proba := by
    have hl : ((proba.map (fun row => (List.finRange 3).map
          (fun i => row.getD (σ i).val 0))).map
            (fun row => (argsortP (fun i => w (σ i))).map (fun c => row.getD c.val 0)))
        = proba.map (fun row => (argsortP w).map (fun c => row.getD c.val 0)) := by
      rw [List.map_map]
      congr 1
      funext row
      show (argsortP (fun i => w (σ i))).map
          (fun c => ((List.finRange 3).map (fun i => row.getD (σ i).val 0)).getD c.val 0)
        = (argsortP w).map (fun c => row.getD c.val 0)
      rw [argsortP_comp_perm w hw σ, List.map_map]
      congr 1
      funext c
      show ((List.finRange 3).map (fun i => row.getD (σ i).val 0)).getD (σ.symm c).val 0
        = row.getD c.val 0
      rw [getD_map_finRange (fun i => row.getD (σ i).val 0) (σ.symm c),
        Equiv.apply_symm_apply]
    show scatterZ [0, 0, 0] (maskData img bm)
        ((proba.map (fun row => (List.finRange 3).map
          (fun i => row.getD (σ i).val 0))).map
            (fun row => (argsortP (fun i => w (σ i))).map (fun c => row.getD c.val 0)))
      = scatterZ [0, 0, 0] (maskData img bm)
          (proba.map (fun row => (argsortP w).map (fun c => row.getD c.val 0)))
    rw [hl]
  have h4 : gmm_class_mask_hard img bm (fun i => w (σ i))
      (tmp.map (fun c => σ.symm c)) = gmm_class_mask_hard img bm w tmp := by
    have hl : ((predictedLabels (argsortP (fun i => w (σ i)))
          (tmp.map (fun c => σ.symm c))).map (fun v => v + 1))
        = (predictedLabels (argsortP w) tmp).map (fun v => v + 1) := by
      rw [predictedLabels_eq _ _ (argsortP_nodup _) (mem_argsortP _),
        predictedLabels_eq _ _ (argsortP_nodup w) (mem_argsortP w),
        List.map_map, List.map_map, List.map_map]
      congr 1
      funext c
      show ((argsortP (fun i => w (σ i))).indexOf (σ.symm c) + 1) + 1
        = ((argsortP w).indexOf c + 1) + 1
      rw [argsortP_comp_perm w hw σ, indexOf_map_of_injective σ.symm.injective]
    show scatterZ 0 (maskData img bm)
        ((predictedLabels (argsortP (fun i => w (σ i)))
          (tmp.map (fun c => σ.symm c))).map (fun v => v + 1))
      = scatterZ 0 (maskData img bm)
          ((predictedLabels (argsortP w) tmp).map (fun v => v + 1))
    rw [hl]
  exact ⟨h1, h2, h3, h4⟩

/-- Witness for the amended C9 with distinct centers and weights and the
permutation swapping the first two raw components. -/
theorem c9_class_ordering_invariance_witness :
    Function.Injective (![1, 2, 3] : Fin 3 → ℚ) ∧
    fcm_class_mask_soft [1] none
        (fun i => (![1, 2, 3] : Fin 3 → ℚ) (Equiv.swap 0 1 i))
        (fun i => (![[1], [0], [0]] : Fin 3 → List ℚ) (Equiv.swap 0 1 i))
      = fcm_class_mask_soft [1] none ![1, 2, 3] ![[1], [0], [0]] ∧
    gmm_class_mask_hard [1] none
        (fun i => (![1, 2, 3] : Fin 3 → ℚ) (Equiv.swap 0 1 i))
        (([0] : List (Fin 3)).map (fun c => (Equiv.swap 0 1).symm c))
      = gmm_class_mask_hard [1] none ![1, 2, 3] [0] := by
  have h := c9_class_ordering_invariance [1] none ![1, 2, 3] ![[1], [0], [0]]
    ![1, 2, 3] [0] [[0, 0, 1]] (Equiv.swap 0 1) (by decide) (by decide)
  exact ⟨by decide, h.1, h.2.2.2⟩

end IntensityNormalization
